import Mathlib

/-!
Verification of the chess twitter bot (`twitterbot.py`).

The development shallowly embeds the bot's pure logic:

* Python string operations used by the bot (`str.split`, `str.lower`,
  `str.strip`, the substring test `in`, `", ".join`-style splitting) are
  modelled character-exactly on `List Char` and wrapped in `String`.
* The external chess library (`python-chess`) and the engine are out of
  scope of the specification; they are modelled as an abstract structure
  `ChessLib` (board type, initial board, `push_san`, SAN enumeration of
  legal moves, checkmate test) plus an abstract engine function.
* The body of `main` that handles one mention, and the per-cycle cursor
  logic, are transcribed into pure functions returning the updated game
  store and a trace of observable events; a Python exception escaping the
  per-mention handling is modelled by `Option.none`.
-/

namespace ChessBot

/-- Characters Python's `str.split()` and `str.strip()` treat as whitespace. -/
def isPySpace (c : Char) : Bool :=
  c = ' ' || c = '\t' || c = '\n' || c = '\r' || c = '\x0b' || c = '\x0c'

/-- Python `str.split()` (no separator): split on runs of whitespace,
discarding empty pieces, at the level of character lists. -/
def splitWs : List Char → List (List Char)
  | [] => []
  | [c] => if isPySpace c then [] else [[c]]
  | c1 :: c2 :: rest =>
    if isPySpace c1 then splitWs (c2 :: rest)
    else if isPySpace c2 then [c1] :: splitWs (c2 :: rest)
    else (c1 :: (splitWs (c2 :: rest)).headI) :: (splitWs (c2 :: rest)).tail

/-- Python `str.split(", ")`, the separator used by `possible_moves` when it
splits the printed legal-move list; leftmost-match scanning, keeps empties
(`"".split(", ") == [""]`). -/
def splitCS : List Char → List (List Char)
  | [] => [[]]
  | [c] => [[c]]
  | c1 :: c2 :: rest =>
    if c1 = ',' ∧ c2 = ' ' then [] :: splitCS rest
    else (c1 :: (splitCS (c2 :: rest)).headI) :: (splitCS (c2 :: rest)).tail

/-- Join character-list tokens with a separator (the character-level view of
`sep.join(tokens)`). -/
def joinSep (sep : List Char) : List (List Char) → List Char
  | [] => []
  | t :: ts =>
    match ts with
    | [] => t
    | _ :: _ => t ++ sep ++ joinSep sep ts

/-- Python `str.split()` on a `String`. -/
def pySplitWs (s : String) : List String :=
  (splitWs s.data).map fun l => ⟨l⟩

/-- Python `str.split(", ")` on a `String`. -/
def pySplitCS (s : String) : List String :=
  (splitCS s.data).map fun l => ⟨l⟩

/-- Python `str.lower()` (ASCII case folding suffices for the bot's text). -/
def pyLower (s : String) : String :=
  ⟨s.data.map Char.toLower⟩

/-- Occurrence test for a pattern inside a character list. -/
def containsSub (pat : List Char) : List Char → Bool
  | [] => pat.isEmpty
  | c :: rest => pat.isPrefixOf (c :: rest) || containsSub pat rest

/-- Python's substring test `needle in hay`. -/
def pyContains (hay needle : String) : Bool :=
  containsSub needle.data hay.data

/-- Python `str.strip()`: drop leading and trailing whitespace. -/
def pyStrip (s : String) : String :=
  ⟨((s.data.dropWhile fun c => isPySpace c).reverse.dropWhile fun c => isPySpace c).reverse⟩

/-- Rest of the text after the first occurrence of a (nonempty) literal
pattern, the way `re.findall` with a literal prefix finds its first match. -/
def afterFirst (pat : List Char) : List Char → Option (List Char)
  | [] => none
  | c :: rest =>
    if pat.isPrefixOf (c :: rest) then some (List.drop pat.length (c :: rest))
    else afterFirst pat rest

/-! Basic facts about the splitting functions. -/

theorem splitCS_ne_nil : ∀ s : List Char, splitCS s ≠ [] := by
  intro s
  match s with
  | [] => simp [splitCS]
  | [c] => simp [splitCS]
  | c1 :: c2 :: rest =>
    rw [splitCS]
    split <;> simp

theorem splitWs_cons_ne_nil {c : Char} (hc : isPySpace c = false) (s : List Char) :
    splitWs (c :: s) ≠ [] := by
  match s with
  | [] => simp [splitWs, hc]
  | c2 :: rest =>
    rw [splitWs]
    simp only [hc, Bool.false_eq_true, if_false]
    split <;> simp

/-- Skipping a leading whitespace character does not change `str.split()`. -/
theorem splitWs_space_skip {c : Char} (hc : isPySpace c = true) (s : List Char) :
    splitWs (c :: s) = splitWs s := by
  match s with
  | [] => simp [splitWs, hc]
  | c2 :: rest => rw [splitWs]; simp [hc]

/-- Reading one whitespace-free token followed by a space under `str.split()`. -/
theorem splitWs_token :
    ∀ t : List Char, t ≠ [] → (∀ c ∈ t, isPySpace c = false) → ∀ s,
      splitWs (t ++ ' ' :: s) = t :: splitWs s := by
  intro t
  induction t with
  | nil => simp
  | cons c t' IH =>
    intro _ hwf s
    have hc : isPySpace c = false := hwf c (by simp)
    match t' with
    | [] =>
      show splitWs (c :: ' ' :: s) = [c] :: splitWs s
      rw [splitWs]
      have hsp : isPySpace ' ' = true := by decide
      simp [hc, hsp, splitWs_space_skip hsp]
    | c2 :: t'' =>
      have hc2 : isPySpace c2 = false := hwf c2 (by simp)
      have hrec := IH (by simp) (fun c hm => hwf c (by simp [hm])) s
      rw [List.cons_append, List.cons_append, splitWs]
      rw [List.cons_append] at hrec
      simp [hc, hc2, hrec]

/-- Tokens produced by `str.split()` are nonempty and whitespace-free. -/
theorem splitWs_wf :
    ∀ s : List Char, ∀ t ∈ splitWs s, t ≠ [] ∧ ∀ c ∈ t, isPySpace c = false := by
  intro s
  induction s using splitWs.induct with
  | case1 => simp [splitWs]
  | case2 c hc => simp [splitWs, hc]
  | case3 c hc =>
    simp only [Bool.not_eq_true] at hc
    simp [splitWs, hc]
  | case4 c1 c2 rest hc1 IH =>
    rw [splitWs_space_skip (by simpa using hc1)]
    exact IH
  | case5 c1 c2 rest hc1 hc2 IH =>
    simp only [Bool.not_eq_true] at hc1
    rw [splitWs]
    simp only [hc1, Bool.false_eq_true, if_false, if_pos (by simpa using hc2)]
    intro t hm
    rcases List.mem_cons.mp hm with h | h
    · subst h
      exact ⟨by simp, by simp [hc1]⟩
    · exact IH t h
  | case6 c1 c2 rest hc1 hc2 IH =>
    simp only [Bool.not_eq_true] at hc1 hc2
    rw [splitWs]
    simp only [hc1, hc2, Bool.false_eq_true, if_false]
    intro t hm
    have hne := splitWs_cons_ne_nil hc2 rest
    rcases hsp : splitWs (c2 :: rest) with _ | ⟨t0, ts⟩
    · exact absurd hsp hne
    · rw [hsp] at hm
      simp only [List.headI, List.tail] at hm
      rcases List.mem_cons.mp hm with h | h
      · subst h
        have h0 := IH t0 (by rw [hsp]; simp)
        refine ⟨by simp, ?_⟩
        intro c hm2
        rcases List.mem_cons.mp hm2 with h | h
        · subst h; exact hc1
        · exact h0.2 c h
      · exact IH t (by rw [hsp]; simp [h])

/-- A comma-free token is returned whole by `str.split(", ")`. -/
theorem splitCS_single :
    ∀ t : List Char, ',' ∉ t → splitCS t = [t] := by
  intro t
  induction t with
  | nil => simp [splitCS]
  | cons c t' IH =>
    intro hnc
    have hc : c ≠ ',' := by intro h; exact hnc (by simp [h])
    match t' with
    | [] => simp [splitCS]
    | c2 :: t'' =>
      rw [splitCS]
      have : ¬(c = ',' ∧ c2 = ' ') := fun h => hc h.1
      rw [if_neg this, IH (fun h => hnc (by simp [h]))]
      simp

/-- Reading one comma-free token followed by the separator under
`str.split(", ")`. -/
theorem splitCS_token :
    ∀ t : List Char, ',' ∉ t → ∀ s,
      splitCS (t ++ ',' :: ' ' :: s) = t :: splitCS s := by
  intro t
  induction t with
  | nil =>
    intro _ s
    rw [List.nil_append, splitCS]
    simp
  | cons c t' IH =>
    intro hnc s
    have hc : c ≠ ',' := by intro h; exact hnc (by simp [h])
    have hrec := IH (fun h => hnc (by simp [h])) s
    match t' with
    | [] =>
      rw [List.nil_append] at hrec
      rw [List.cons_append, List.nil_append, splitCS]
      have : ¬(c = ',' ∧ ',' = ' ') := fun h => hc h.1
      rw [if_neg this, hrec]
      simp
    | c2 :: t'' =>
      rw [List.cons_append, List.cons_append, splitCS]
      have : ¬(c = ',' ∧ c2 = ' ') := fun h => hc h.1
      rw [List.cons_append] at hrec
      rw [if_neg this, hrec]
      simp

/-- Splitting the separator-join of comma-free tokens recovers the tokens. -/
theorem splitCS_join :
    ∀ ts : List (List Char), ts ≠ [] → (∀ t ∈ ts, ',' ∉ t) →
      splitCS (joinSep [',', ' '] ts) = ts := by
  intro ts
  induction ts with
  | nil => simp
  | cons t ts' IH =>
    intro _ hwf
    match ts' with
    | [] =>
      rw [joinSep]
      exact splitCS_single t (hwf t (by simp))
    | t2 :: ts'' =>
      rw [joinSep]
      have : t ++ [',', ' '] ++ joinSep [',', ' '] (t2 :: ts'') =
          t ++ ',' :: ' ' :: joinSep [',', ' '] (t2 :: ts'') := by simp
      rw [this, splitCS_token t (hwf t (by simp)),
        IH (by simp) (fun u hu => hwf u (by simp [hu]))]

/-- Splitting the space-join of well-formed tokens with a trailing space
recovers the tokens. -/
theorem splitWs_joinTrail :
    ∀ ts : List (List Char),
      (∀ t ∈ ts, t ≠ [] ∧ ∀ c ∈ t, isPySpace c = false) →
      splitWs (joinSep [' '] ts ++ [' ']) = ts := by
  intro ts
  induction ts with
  | nil => simp [joinSep, splitWs]; decide
  | cons t ts' IH =>
    intro hwf
    match ts' with
    | [] =>
      rw [joinSep]
      have := splitWs_token t (hwf t (by simp)).1 (hwf t (by simp)).2 []
      simpa [splitWs] using this
    | t2 :: ts'' =>
      rw [joinSep]
      have : (t ++ [' '] ++ joinSep [' '] (t2 :: ts'')) ++ [' '] =
          t ++ ' ' :: (joinSep [' '] (t2 :: ts'') ++ [' ']) := by simp
      rw [this, splitWs_token t (hwf t (by simp)).1 (hwf t (by simp)).2,
        IH (fun u hu => hwf u (by simp [hu]))]

/-! The external chess library (`python-chess`), abstracted.  The spec treats
the chess rules library as an assumed-correct capability, so it enters the
embedding as an abstract structure: a board type, the initial board,
`board.push_san` (failing on tokens that are not legal moves in strict SAN,
modelled by `Option`), the list of SAN tokens the legal-move generator
prints between its parentheses, and the checkmate test. -/

structure ChessLib where
  Board : Type
  init : Board
  pushSan : Board → String → Option Board
  legalSans : Board → List String
  isCheckmate : Board → Bool

/-- Assumed-correct behaviour of the library: listed SAN tokens are nonempty
and contain no whitespace and no comma. -/
def SansWf (C : ChessLib) : Prop :=
  ∀ b s, s ∈ C.legalSans b → s.data ≠ [] ∧ ∀ c ∈ s.data, isPySpace c = false ∧ c ≠ ','

/-- Assumed-correct behaviour of the engine adapter: a produced move (already
converted to SAN by `board.san`) is among the legal SAN tokens. -/
def PlayLegal (C : ChessLib) (play : C.Board → Option String) : Prop :=
  ∀ b m, play b = some m → m ∈ C.legalSans b

/-- The text `str(board.legal_moves)` places between its parentheses, which
is what the regex in `possible_moves` extracts: the legal SAN tokens joined
by `", "`. -/
def legal_moves_repr (C : ChessLib) (b : C.Board) : String :=
  String.intercalate ", " (C.legalSans b)

/-- Source `possible_moves(board)`: extract the parenthesized move list from
`str(board.legal_moves)`, drop the parentheses and split on `", "`. -/
def possible_moves (C : ChessLib) (b : C.Board) : List String :=
  pySplitCS (legal_moves_repr C b)

/-- Folding `board.push_san` over a token list from a given board. -/
def push_from (C : ChessLib) (b : C.Board) (pgn : List String) : Option C.Board :=
  pgn.foldlM C.pushSan b

/-- Source `push_pgn(pgn)`: start from `chess.Board()` and apply each move in
order with `board.push_san`; a failing token raises, modelled by `none`. -/
def push_pgn (C : ChessLib) (pgn : List String) : Option C.Board :=
  push_from C C.init pgn

/-- Source `apply_player_move(game_history, attempted_move)`: rebuild the
board from the history, reject the move if it is not an exact member of
`possible_moves`, otherwise append it to the history.  The returned `Bool`
is the source's return value; the returned list is the history after the
call (Python mutates `game_history` in place). -/
def apply_player_move (C : ChessLib) (game_history : List String)
    (attempted_move : String) : Option (Bool × List String) := do
  let board ← push_pgn C game_history
  let pos_moves := possible_moves C board
  if attempted_move ∉ pos_moves then
    return (false, game_history)
  else
    return (true, game_history ++ [attempted_move])

/-- Source `apply_bot_move(game_history)`: rebuild the board, ask the engine
for a move (already converted to SAN), append it; engine failure raises,
modelled by `none`. -/
def apply_bot_move (C : ChessLib) (play : C.Board → Option String)
    (game_history : List String) : Option (String × List String) := do
  let board ← push_pgn C game_history
  let my_move ← play board
  return (my_move, game_history ++ [my_move])

/-- Source `pgn_list_to_string(pgn_list)`: space-join with a trailing space. -/
def pgn_list_to_string (pgn_list : List String) : String :=
  String.intercalate " " pgn_list ++ " "

/-- Loop body of `split_to_240_char`: accumulate tokens into `fragment`,
flushing `fragment` (and silently discarding the token that triggered the
flush) when the token no longer fits, and append the open fragment at the
end. -/
def split240Loop : List String → String → List String
  | [], fragment => [fragment]
  | a :: rest, fragment =>
    if (fragment ++ a).length ≤ 240 then split240Loop rest (fragment ++ a ++ " ")
    else fragment :: split240Loop rest ""

/-- Source `split_to_240_char(string)`: split on whitespace, then re-pack the
tokens into fragments. -/
def split_to_240_char (string : String) : List String :=
  split240Loop (pySplitWs string) ""

/-! Facts about the codec. -/

theorem intercalate_go_data :
    ∀ (as : List String) (acc s : String),
      (String.intercalate.go acc s as).data =
        joinSep s.data (acc.data :: as.map String.data) := by
  intro as
  induction as with
  | nil => intro acc s; simp [String.intercalate.go, joinSep]
  | cons a as' IH =>
    intro acc s
    rw [String.intercalate.go, IH]
    match as' with
    | [] => simp [joinSep]
    | b :: bs => simp [joinSep, List.append_assoc]

/-- Character-level view of `String.intercalate`. -/
theorem intercalate_data (s : String) :
    ∀ l : List String,
      (String.intercalate s l).data = joinSep s.data (l.map String.data) := by
  intro l
  match l with
  | [] => simp [String.intercalate, joinSep]
  | a :: as => rw [String.intercalate, intercalate_go_data]; simp

/-- Character-level view of `pgn_list_to_string`. -/
theorem pgn_list_to_string_data (l : List String) :
    (pgn_list_to_string l).data = joinSep [' '] (l.map String.data) ++ [' '] := by
  rw [pgn_list_to_string, String.data_append, intercalate_data]

/-- When the position has at least one legal move, `possible_moves` returns
exactly the library's legal SAN tokens. -/
theorem possible_moves_eq (C : ChessLib) (hwf : SansWf C) (b : C.Board)
    (hne : C.legalSans b ≠ []) : possible_moves C b = C.legalSans b := by
  rw [possible_moves, pySplitCS, legal_moves_repr, intercalate_data]
  have hsep : (", " : String).data = [',', ' '] := rfl
  rw [hsep, splitCS_join]
  · have hmk : ((fun l => (⟨l⟩ : String)) ∘ String.data) = id := by
      funext x; rfl
    rw [List.map_map, hmk, List.map_id]
  · simpa using hne
  · intro t ht
    rcases List.mem_map.mp ht with ⟨u, hu, rfl⟩
    intro hc
    exact ((hwf b u hu).2 ',' hc).2 rfl

/-- When the position has no legal move, `possible_moves` returns `[""]`
(because `"".split(", ") == [""]` in Python). -/
theorem possible_moves_of_no_legal (C : ChessLib) (b : C.Board)
    (h : C.legalSans b = []) : possible_moves C b = [""] := by
  rw [possible_moves, legal_moves_repr, h]
  rfl

/-- `possible_moves` never returns the empty list. -/
theorem possible_moves_ne_nil (C : ChessLib) (b : C.Board) :
    possible_moves C b ≠ [] := by
  rw [possible_moves, pySplitCS]
  simp [splitCS_ne_nil]

/-- A nonempty member of `possible_moves` is one of the library's legal SAN
tokens. -/
theorem mem_legalSans_of_mem_possible_moves (C : ChessLib) (hwf : SansWf C)
    {b : C.Board} {m : String} (hm : m ∈ possible_moves C b)
    (hne : m.data ≠ []) : m ∈ C.legalSans b := by
  rcases h : C.legalSans b with _ | ⟨t, ts⟩
  · rw [possible_moves_of_no_legal C b h] at hm
    simp at hm
    subst hm
    exact absurd rfl hne
  · rw [possible_moves_eq C hwf b (by simp [h])] at hm
    exact h ▸ hm

/-! The game store and the per-mention state machine of `main`. -/

/-- One line of `games.txt` after `game.strip().split(",")`: the username and
the space-joined move text. -/
abbrev Game := String × String

/-- Observable side effects of handling one mention.  `status` is
`api.update_status`, `media` is `api.update_with_media` (a post carrying the
board image), `mail` is `send_email`, `engine` marks an invocation of the
Stockfish engine adapter (`apply_bot_move`). -/
inductive Event where
  | status (text : String)
  | media (text : String)
  | mail (subject : String) (body : String)
  | engine
deriving DecidableEq, Repr

/-- Result of handling one mention: the updated in-memory game list (the
contents written back to `games.txt`) and the emitted events in order. -/
structure TurnResult where
  games : List Game
  events : List Event
deriving DecidableEq, Repr

/-- The session-lookup loop of `main`, kept verbatim: iterate over all
indices in order, remembering the last case-insensitive username match in
`game_index` (initially `-1`). -/
def find_game_index_from (name : String) : List Game → Nat → Int → Int
  | [], _, acc => acc
  | g :: gs, i, acc =>
    find_game_index_from name gs (i + 1)
      (if pyLower name = pyLower g.1 then (i : Int) else acc)

/-- Source `main` lines computing `game_index`. -/
def find_game_index (games : List Game) (name : String) : Int :=
  find_game_index_from name games 0 (-1)

/-- Same lookup, returning the last matching index together with the matched
entry (`None` instead of `-1`); `find_game_index_eq_lastMatch` proves it
equal to the verbatim loop. -/
def lastMatch (name : String) : List Game → Option (Nat × Game)
  | [] => none
  | g :: gs =>
    match lastMatch name gs with
    | some (i, g') => some (i + 1, g')
    | none => if pyLower name = pyLower g.1 then some (0, g) else none

/-- First index holding a value equal to `v` (Python `list.remove` removes
this occurrence). -/
def firstIdxOf (v : Game) : List Game → Option Nat
  | [] => none
  | g :: gs => if g = v then some 0 else (firstIdxOf v gs).map (· + 1)

/-- Source `main` move extraction: `re.findall('captures ([^#]*)', text)`,
first match, stripped; `""` when there is no match. -/
def extract_move (text : String) : String :=
  match afterFirst "captures ".data text.data with
  | none => ""
  | some rest => pyStrip ⟨rest.takeWhile fun c => c != '#'⟩

/-- Python `list.remove(curr)` on the game list, while tracking the position
of the aliased `curr_game` object (`idx`): the first entry equal to `curr`
is removed; if that entry is `curr_game` itself the alias leaves the list
(`none`), if it is an earlier duplicate the alias shifts down one slot. -/
def eraseTracked (games : List Game) (curr : Game) (idx : Option Nat) :
    List Game × Option Nat :=
  match idx with
  | none => (games.erase curr, none)
  | some i =>
    match firstIdxOf curr games with
    | some j => (games.erase curr, if j = i then none else some (i - 1))
    | none => (games.erase curr, some i)

/-- Source `main` lines 383-389, the terminal cleanup of a move-handling
turn: an empty resulting `move_history` removes the session from the list;
otherwise the serialized history is written into the aliased `curr_game`
record (a mutation that only changes the list while the alias is still in
it).  Returns the new list and the new value of `curr_game`. -/
def terminal_cleanup (games : List Game) (curr : Game) (idx : Option Nat)
    (move_history : List String) : List Game × Game :=
  if move_history.isEmpty then
    (games.erase curr, curr)
  else
    let updated : Game := (curr.1, pgn_list_to_string move_history)
    match idx with
    | some i => (games.set i updated, updated)
    | none => (games, updated)

/-- Source `main` lines 391-399: the game-over follow-up posts (gif link,
then the chunked move history / stored text of `curr_game`). -/
def gameOverEvents (screen_name : String) (histText : String) : List Event :=
  Event.status ("@" ++ screen_name ++
      " Use this link and the following pgn to create a gif of your game! https://www.chess.com/gifs")
    :: (split_to_240_char histText).map fun a =>
        Event.status ("@" ++ screen_name ++ " " ++ a)

/-- Assemble the result of a move-handling turn: terminal cleanup followed by
the game-over posts when `game_over` is set. -/
def finishTurn (screen_name : String) (games : List Game) (curr : Game)
    (idx : Option Nat) (game_over : Bool) (ev : List Event)
    (move_history : List String) : Option TurnResult :=
  let tc := terminal_cleanup games curr idx move_history
  some { games := tc.1,
         events := if game_over then ev ++ gameOverEvents screen_name tc.2.2 else ev }

/-- Source `main` lines 306-399 (`make_a_move` is true): extract the
attempted move and run the move/start-as-black/no-move branches, then the
terminal cleanup and game-over posts.  `games` is the list after the
`#startgame` bookkeeping, `curr` the aliased `curr_game` entry and `idx` its
position.  A Python exception (replay of a corrupt stored history, engine
failure) is `none`. -/
def make_move (C : ChessLib) (play : C.Board → Option String)
    (screen_name tweet_text lower : String) (games : List Game) (curr : Game)
    (idx : Option Nat) : Option TurnResult :=
  let move_tried := extract_move tweet_text
  let move_history := pySplitWs curr.2
  if move_tried.data ≠ [] then
    match apply_player_move C move_history move_tried with
    | none => none
    | some (true, mh) =>
      match push_pgn C mh with
      | none => none
      | some board =>
        if C.isCheckmate board then
          let et := eraseTracked games curr idx
          finishTurn screen_name et.1 curr et.2 true
            [Event.media ("@" ++ screen_name ++ " You mated me! Congratulations!")] mh
        else
          match apply_bot_move C play mh with
          | none => none
          | some (bot_move, mh2) =>
            match push_pgn C mh2 with
            | none => none
            | some board2 =>
              if C.isCheckmate board2 then
                let et := eraseTracked games curr idx
                finishTurn screen_name et.1 curr et.2 true
                  [Event.engine,
                   Event.media ("@" ++ screen_name ++ " " ++ bot_move ++ "Checkmate!")] mh2
              else
                finishTurn screen_name games curr idx false
                  [Event.engine, Event.media ("@" ++ screen_name ++ " " ++ bot_move)] mh2
    | some (false, mh) =>
      match push_pgn C mh with
      | none => none
      | some _board =>
        finishTurn screen_name games curr idx false
          [Event.media ("@" ++ screen_name ++
            " That move is invalid. If you would to see a list of valid moves, use the #possiblemoves")]
          mh
  else if pyContains lower "#startgame" then
    match apply_bot_move C play move_history with
    | none => none
    | some (bot_move, mh2) =>
      match push_pgn C mh2 with
      | none => none
      | some _board =>
        finishTurn screen_name games curr idx false
          [Event.engine, Event.media ("@" ++ screen_name ++ " " ++ bot_move)] mh2
  else
    match push_pgn C move_history with
    | none => none
    | some _board =>
      finishTurn screen_name games curr idx false
        [Event.media ("@" ++ screen_name ++ " You need to make a move.")] move_history

/-- Source `main` lines 208-404: the handling of a single mention after the
cursor has been stored.  `mid` is the mention id (used in the error email),
`screen_name` the author, `tweet_text` the full text, `list_of_games` the
parsed contents of `games.txt`.  Returns the updated game list and the
events, or `none` when a Python exception escapes. -/
def process_mention (C : ChessLib) (play : C.Board → Option String) (mid : Int)
    (screen_name tweet_text : String) (list_of_games : List Game) :
    Option TurnResult :=
  let lower := pyLower tweet_text
  let gidx := lastMatch screen_name list_of_games
  if pyContains lower "#resign" then
    match gidx with
    | some (_, curr_game) =>
      some { games := list_of_games.erase curr_game,
             events := Event.status ("@" ++ screen_name ++
                 " You made me work hard for that. Good game!")
               :: gameOverEvents screen_name curr_game.2 }
    | none =>
      some { games := list_of_games,
             events := [Event.status ("@" ++ screen_name ++
               " You made me work hard for that. Good game!")] }
  else if pyContains lower "#error" then
    some { games := list_of_games,
           events := [Event.mail "An Error Was Reported"
             ("A user reported an error using #error in their tweet. Here are the tweet contents: "
               ++ "\nMention ID: " ++ toString mid ++ "\nUsername: " ++ screen_name
               ++ "\nText: " ++ tweet_text)] }
  else if pyContains lower "#possiblemoves" then
    let ob : Option C.Board :=
      match gidx with
      | some (_, g) => push_pgn C (pySplitWs g.2)
      | none => some C.init
    match ob with
    | none => none
    | some board =>
      some { games := list_of_games,
             events := [Event.media ("@" ++ screen_name ++
               " Here are all of the valid moves in this position: "
                 ++ pgn_list_to_string (possible_moves C board))] }
  else if pyContains lower "#getpgn" then
    match gidx with
    | some (_, g) =>
      some { games := list_of_games,
             events := (split_to_240_char g.2).map fun a =>
               Event.status ("@" ++ screen_name ++ " " ++ a) }
    | none =>
      some { games := list_of_games,
             events := [Event.status ("@" ++ screen_name ++ " No game found.")] }
  else
    match gidx, pyContains lower "#startgame" with
    | none, false =>
      some { games := list_of_games,
             events := [Event.status ("@" ++ screen_name ++
               " Include #startgame if you would like to start a game.")] }
    | some (i, g), true =>
      make_move C play screen_name tweet_text lower
        (list_of_games.set i (g.1, "")) (g.1, "") (some i)
    | none, true =>
      make_move C play screen_name tweet_text lower
        (list_of_games ++ [(screen_name, "")]) (screen_name, "")
        (some list_of_games.length)
    | some (i, g), false =>
      make_move C play screen_name tweet_text lower list_of_games g (some i)

/-! The polling cycle and the cursor. -/

/-- Consumed fields of a platform mention object. -/
structure Mention where
  id : Int
  user : String
  text : String
deriving DecidableEq, Repr

/-- Observable steps of one polling cycle: a `store_last_seen_id` write, the
completed handling of a mention, or an exception aborting the cycle while
handling a mention. -/
inductive CycleEvent where
  | cursorWrite (id : Int)
  | handled (id : Int) (events : List Event)
  | aborted (id : Int)
deriving DecidableEq, Repr

/-- Source `main` lines 203-404 over the whole batch: mentions are taken
oldest first (`reversed(mentions)`); for each, the cursor is stored first,
then the mention is handled; the game file rewritten after each mention is
the state passed to the next.  An exception aborts the rest of the cycle. -/
def run_cycle (C : ChessLib) (play : C.Board → Option String) :
    List Mention → List Game → List CycleEvent × List Game
  | [], games => ([], games)
  | m :: rest, games =>
    match process_mention C play m.id m.user m.text games with
    | none => ([CycleEvent.cursorWrite m.id, CycleEvent.aborted m.id], games)
    | some r =>
      let rc := run_cycle C play rest r.games
      (CycleEvent.cursorWrite m.id :: CycleEvent.handled m.id r.events :: rc.1, rc.2)

/-- The store invariant of spec section 3: every stored history replays
without failure from the initial position. -/
def StoreInv (C : ChessLib) (games : List Game) : Prop :=
  ∀ g ∈ games, (push_pgn C (pySplitWs g.2)).isSome

/-! Supporting lemmas about the lookup, the move application and the store. -/

theorem lastMatch_get :
    ∀ (gs : List Game) (name : String) (i : Nat) (g : Game),
      lastMatch name gs = some (i, g) →
        gs.get? i = some g ∧ pyLower name = pyLower g.1 := by
  intro gs
  induction gs with
  | nil => intro name i g h; simp [lastMatch] at h
  | cons a as IH =>
    intro name i g h
    rw [lastMatch] at h
    rcases h2 : lastMatch name as with _ | ⟨j, g'⟩ <;> rw [h2] at h
    · by_cases hm : pyLower name = pyLower a.1
      · rw [if_pos hm] at h
        cases h
        exact ⟨rfl, hm⟩
      · rw [if_neg hm] at h
        cases h
    · simp only [Option.some.injEq, Prod.mk.injEq] at h
      obtain ⟨h3, h4⟩ := h
      subst h3
      subst h4
      exact ⟨(IH name j g' h2).1, (IH name j g' h2).2⟩

theorem find_from_eq_lastMatch :
    ∀ (gs : List Game) (name : String) (i : Nat) (acc : Int),
      find_game_index_from name gs i acc =
        (match lastMatch name gs with
          | none => acc
          | some (k, _) => ((i + k : Nat) : Int)) := by
  intro gs
  induction gs with
  | nil => intro name i acc; simp [find_game_index_from, lastMatch]
  | cons a as IH =>
    intro name i acc
    rw [find_game_index_from, lastMatch, IH]
    rcases h2 : lastMatch name as with _ | ⟨j, g'⟩
    · by_cases hm : pyLower name = pyLower a.1 <;> simp [hm]
    · simp only []
      congr 1
      omega

/-- The verbatim lookup loop agrees with `lastMatch`. -/
theorem find_game_index_eq_lastMatch (games : List Game) (name : String) :
    find_game_index games name =
      (match lastMatch name games with
        | none => -1
        | some (k, _) => (k : Int)) := by
  rw [find_game_index, find_from_eq_lastMatch]
  rcases lastMatch name games with _ | ⟨j, g⟩ <;> simp

/-- Shape of a successful `apply_player_move`. -/
theorem apply_player_move_true (C : ChessLib) (h : List String) (m : String)
    (l : List String) (hap : apply_player_move C h m = some (true, l)) :
    ∃ b0, push_pgn C h = some b0 ∧ m ∈ possible_moves C b0 ∧ l = h ++ [m] := by
  unfold apply_player_move at hap
  rcases hb : push_pgn C h with _ | b0 <;> rw [hb] at hap
  · simp at hap
  · by_cases hm : m ∈ possible_moves C b0
    · refine ⟨b0, rfl, hm, ?_⟩
      simp [hm] at hap
      exact hap.symm
    · simp [hm] at hap

/-- Shape of a successful `apply_bot_move`. -/
theorem apply_bot_move_some (C : ChessLib) (play : C.Board → Option String)
    (h : List String) (bm : String) (l : List String)
    (hab : apply_bot_move C play h = some (bm, l)) :
    ∃ b0, push_pgn C h = some b0 ∧ play b0 = some bm ∧ l = h ++ [bm] := by
  unfold apply_bot_move at hab
  rcases hb : push_pgn C h with _ | b0 <;> rw [hb] at hab
  · simp at hab
  · simp only [Option.pure_def, Option.bind_eq_bind, Option.some_bind] at hab
    rcases hp : play b0 with _ | mv <;> rw [hp] at hab
    · simp at hab
    · simp only [Option.some_bind, Option.some.injEq, Prod.mk.injEq] at hab
      obtain ⟨h1, h2⟩ := hab
      subst h1
      exact ⟨b0, rfl, hp, h2.symm⟩

theorem firstIdxOf_erase :
    ∀ (l : List Game) (v : Game) (i : Nat),
      firstIdxOf v l = some i → l.erase v = l.eraseIdx i := by
  intro l
  induction l with
  | nil => intro v i h; simp [firstIdxOf] at h
  | cons g gs IH =>
    intro v i h
    rw [firstIdxOf] at h
    by_cases hg : g = v
    · rw [if_pos hg] at h
      cases h
      rw [List.erase_cons, if_pos (by simp [hg])]
      simp
    · rw [if_neg hg] at h
      rcases h2 : firstIdxOf v gs with _ | j <;> rw [h2] at h
      · simp at h
      · simp at h
        subst h
        rw [List.erase_cons, if_neg (by simp [hg])]
        simp [IH v j h2]

/-- Histories whose tokens are nonempty and whitespace-free (what every
history occurring in the bot satisfies). -/
def HistWf (l : List String) : Prop :=
  ∀ t ∈ l, t.data ≠ [] ∧ ∀ c ∈ t.data, isPySpace c = false

/-- Deserializing the serialization of a well-formed history gives it back;
this is the `deserialize(serialize(H)) == H` round trip. -/
theorem pySplitWs_pgn_list_to_string (H : List String) (hwf : HistWf H) :
    pySplitWs (pgn_list_to_string H) = H := by
  rw [pySplitWs, pgn_list_to_string_data, splitWs_joinTrail]
  · have hmk : ((fun l => (⟨l⟩ : String)) ∘ String.data) = id := by
      funext x; rfl
    rw [List.map_map, hmk, List.map_id]
  · intro t ht
    rcases List.mem_map.mp ht with ⟨u, hu, rfl⟩
    exact hwf u hu

/-- `str.split()` output is always a well-formed history. -/
theorem histWf_pySplitWs (s : String) : HistWf (pySplitWs s) := by
  intro t ht
  rcases List.mem_map.mp ht with ⟨u, hu, rfl⟩
  have := splitWs_wf s.data u hu
  exact ⟨by simpa using this.1, this.2⟩

theorem storeInv_erase (C : ChessLib) (gs : List Game) (v : Game)
    (h : StoreInv C gs) : StoreInv C (gs.erase v) := by
  intro g hg
  exact h g (List.mem_of_mem_erase hg)

theorem storeInv_set (C : ChessLib) (gs : List Game) (i : Nat) (v : Game)
    (h : StoreInv C gs) (hv : (push_pgn C (pySplitWs v.2)).isSome) :
    StoreInv C (gs.set i v) := by
  intro g hg
  rcases List.mem_or_eq_of_mem_set hg with h2 | h2
  · exact h g h2
  · rw [h2]
    exact hv

/-- The empty stored history replays trivially. -/
theorem push_pgn_empty_text (C : ChessLib) :
    (push_pgn C (pySplitWs "")).isSome := by
  rfl

theorem storeInv_append_empty (C : ChessLib) (gs : List Game) (name : String)
    (h : StoreInv C gs) : StoreInv C (gs ++ [(name, "")]) := by
  intro g hg
  rcases List.mem_append.mp hg with h2 | h2
  · exact h g h2
  · simp at h2
    rw [h2]
    exact push_pgn_empty_text C

/-- Terminal cleanup keeps the invariant when the final history is
well-formed and replays. -/
theorem storeInv_terminal_cleanup (C : ChessLib) (games : List Game)
    (curr : Game) (idx : Option Nat) (mh : List String)
    (hinv : StoreInv C games) (hwfh : HistWf mh)
    (hsome : (push_pgn C mh).isSome) :
    StoreInv C (terminal_cleanup games curr idx mh).1 := by
  rw [terminal_cleanup]
  by_cases hemp : mh.isEmpty
  · rw [if_pos hemp]
    exact storeInv_erase C games curr hinv
  · rw [if_neg hemp]
    have hv : (push_pgn C (pySplitWs (curr.1, pgn_list_to_string mh).2)).isSome := by
      show (push_pgn C (pySplitWs (pgn_list_to_string mh))).isSome
      rw [pySplitWs_pgn_list_to_string mh hwfh]
      exact hsome
    rcases idx with _ | i
    · exact hinv
    · exact storeInv_set C games i _ hinv hv

theorem find_from_spec :
    ∀ (gs : List Game) (name : String) (i : Nat) (acc : Int),
      (find_game_index_from name gs i acc = acc ∧
        ∀ g ∈ gs, pyLower name ≠ pyLower g.1) ∨
      (∃ k, ∃ hk : k < gs.length,
        find_game_index_from name gs i acc = ((i + k : Nat) : Int) ∧
        pyLower name = pyLower (gs.get ⟨k, hk⟩).1 ∧
        ∀ j, ∀ hj : j < gs.length, k < j →
          pyLower name ≠ pyLower (gs.get ⟨j, hj⟩).1) := by
  intro gs
  induction gs with
  | nil =>
    intro name i acc
    left
    simp [find_game_index_from]
  | cons a as IH =>
    intro name i acc
    rw [find_game_index_from]
    rcases IH name (i + 1) (if pyLower name = pyLower a.1 then (i : Int) else acc) with
      ⟨heq, hnone⟩ | ⟨k, hk, heq, hmatch, htrail⟩
    · by_cases hm : pyLower name = pyLower a.1
      · right
        refine ⟨0, by simp, ?_, by simpa using hm, ?_⟩
        · rw [heq, if_pos hm]
          simp
        · intro j hj hjpos
          match j, hj with
          | j' + 1, hj =>
            have hg : (a :: as).get ⟨j' + 1, hj⟩ = as.get ⟨j', by simpa using hj⟩ := rfl
            rw [hg]
            exact hnone _ (List.get_mem as j' _)
      · left
        refine ⟨by rw [heq, if_neg hm], ?_⟩
        intro g hg
        rcases List.mem_cons.mp hg with h | h
        · rw [h]; exact hm
        · exact hnone g h
    · right
      refine ⟨k + 1, by simpa using hk, ?_, ?_, ?_⟩
      · rw [heq]
        congr 1
        omega
      · exact hmatch
      · intro j hj hjpos
        match j, hj with
        | j' + 1, hj =>
          have hg : (a :: as).get ⟨j' + 1, hj⟩ = as.get ⟨j', by simpa using hj⟩ := rfl
          rw [hg]
          exact htrail j' (by simpa using hj) (by omega)

/-! The concrete chess instances used by the witnesses.  Positions are the
move list itself; the only line of play is "a" then "b". -/

def toyLegal (b : List String) : List String :=
  if b = [] then ["a"] else if b = ["a"] then ["b"] else []

/-- Executable instance of the chess interface with no reachable checkmate. -/
def toyChess : ChessLib where
  Board := List String
  init := []
  pushSan b s := if s ∈ toyLegal b then some (b ++ [s]) else none
  legalSans := toyLegal
  isCheckmate b := decide (b = ["a", "b", "c"])

/-- Executable engine for `toyChess`: always the first legal move. -/
def toyPlay : List String → Option String := fun b => (toyLegal b).head?

/-- Variant instance in which the position after "a" is checkmate. -/
def toyMate : ChessLib where
  Board := List String
  init := []
  pushSan b s := if s ∈ toyLegal b then some (b ++ [s]) else none
  legalSans := toyLegal
  isCheckmate b := decide (b = ["a"])

/-- The 242-character input exhibiting the chunker bug: a 240-character
token, a space and the token "b". -/
def bugInput : String := ⟨List.replicate 240 'a' ++ [' ', 'b']⟩

/-- The 241-character piece the chunker emits on `bugInput`. -/
def bigChunk : String := ⟨List.replicate 240 'a' ++ [' ']⟩

/-! Claim theorems. -/

/-- C1: the player-move application succeeds exactly when the candidate
token is an exact-string member of the legal-move list generated from the
position reconstructed by replaying the history; on success the token is
appended as the last element of the history, on failure the history is
returned unchanged. -/
theorem C1_apply_player_move_correct (C : ChessLib) (history : List String)
    (move : String) (b : C.Board) (hb : push_pgn C history = some b) :
    (apply_player_move C history move = some (true, history ++ [move]) ↔
      move ∈ possible_moves C b) ∧
    (move ∉ possible_moves C b →
      apply_player_move C history move = some (false, history)) := by
  unfold apply_player_move
  rw [hb]
  simp only [Option.pure_def, Option.bind_eq_bind, Option.some_bind]
  constructor
  · by_cases hm : move ∈ possible_moves C b <;> simp [hm]
  · intro hm
    simp [hm]

theorem C1_witness :
    push_pgn toyChess [] = some ([] : List String) ∧
    ((apply_player_move toyChess [] "a" = some (true, ["a"]) ↔
        "a" ∈ possible_moves toyChess ([] : List String)) ∧
      ("a" ∉ possible_moves toyChess ([] : List String) →
        apply_player_move toyChess [] "a" = some (false, []))) :=
  ⟨rfl, C1_apply_player_move_correct toyChess [] "a" [] rfl⟩

/-- C10: when the position has no legal move, the enumeration returns
`[""]` rather than the empty list (Python's `"".split(", ")`), so the
enumerated list is never empty and its element `""` is not a legal move. -/
theorem C10_possible_moves_no_legal (C : ChessLib) (b : C.Board)
    (h : C.legalSans b = []) :
    possible_moves C b = [""] ∧ possible_moves C b ≠ [] ∧
      "" ∉ C.legalSans b := by
  refine ⟨possible_moves_of_no_legal C b h, possible_moves_ne_nil C b, ?_⟩
  rw [h]
  simp

theorem C10_witness :
    toyChess.legalSans ["x"] = [] ∧
    (possible_moves toyChess ["x"] = [""] ∧
      possible_moves toyChess ["x"] ≠ [] ∧ "" ∉ toyChess.legalSans ["x"]) :=
  ⟨by decide, C10_possible_moves_no_legal toyChess ["x"] (by decide)⟩

/-- C6: deserializing the serialization of a history of whitespace-free,
nonempty tokens returns exactly the history (space-join with trailing
delimiter, then whitespace split). -/
theorem C6_serialize_roundtrip (H : List String)
    (hwf : ∀ t ∈ H, t.data ≠ [] ∧ ∀ c ∈ t.data, isPySpace c = false) :
    pySplitWs (pgn_list_to_string H) = H :=
  pySplitWs_pgn_list_to_string H hwf

theorem C6_witness :
    (∀ t ∈ ["e4", "e5"], t.data ≠ [] ∧ ∀ c ∈ t.data, isPySpace c = false) ∧
    pySplitWs (pgn_list_to_string ["e4", "e5"]) = ["e4", "e5"] :=
  ⟨by decide, C6_serialize_roundtrip ["e4", "e5"] (by decide)⟩

/-- C9: the session lookup compares usernames case-insensitively and, when
several entries match, returns the index of the last match in file order
(`-1` exactly when nothing matches). -/
theorem C9_find_game_index_last_match (games : List Game) (name : String) :
    (find_game_index games name = -1 ∧
      ∀ g ∈ games, pyLower name ≠ pyLower g.1) ∨
    (∃ i, ∃ h : i < games.length,
      find_game_index games name = (i : Int) ∧
      pyLower name = pyLower (games.get ⟨i, h⟩).1 ∧
      ∀ j, ∀ hj : j < games.length, i < j →
        pyLower name ≠ pyLower (games.get ⟨j, hj⟩).1) := by
  unfold find_game_index
  rcases find_from_spec games name 0 (-1) with h | ⟨k, hk, heq, hm, ht⟩
  · left
    exact h
  · right
    exact ⟨k, hk, by simpa using heq, hm, ht⟩

set_option maxRecDepth 16384 in
/-- C5 (code bug): on a 240-character token followed by " b" the chunker
emits a 241-character piece, although its docstring promises pieces of 240
characters or less, and silently drops the token "b", so rejoining the
chunks does not reconstruct the input. -/
theorem C5_split_to_240_char_bug :
    split_to_240_char bugInput = [bigChunk, ""] ∧
    bigChunk.length = 241 ∧
    pyContains bugInput "b" = true ∧
    pyContains bigChunk "b" = false ∧
    pyContains "" "b" = false := by
  refine ⟨?_, ?_, ?_, ?_, by decide⟩ <;> decide

/-- C7: the terminal cleanup of a move-handling turn: an empty resulting
move_history removes the user's session from the in-memory list (one fewer
copy of it remains, so it is not persisted), while a nonempty one replaces
the aliased record's stored history with the serialization of the updated
move_history. -/
theorem C7_terminal_cleanup_spec (games : List Game) (curr : Game) (i : Nat)
    (mh : List String) (_hi : games.get? i = some curr) :
    (mh = [] →
      (terminal_cleanup games curr (some i) mh).1 = games.erase curr ∧
      (terminal_cleanup games curr (some i) mh).1.count curr =
        games.count curr - 1) ∧
    (mh ≠ [] →
      (terminal_cleanup games curr (some i) mh).1 =
        games.set i (curr.1, pgn_list_to_string mh) ∧
      (terminal_cleanup games curr (some i) mh).2 =
        (curr.1, pgn_list_to_string mh)) := by
  constructor
  · rintro rfl
    rw [terminal_cleanup,
      if_pos (show List.isEmpty ([] : List String) = true from rfl)]
    exact ⟨rfl, List.count_erase_self curr games⟩
  · intro hne
    rw [terminal_cleanup]
    rw [if_neg (by simpa using hne)]
    exact ⟨rfl, rfl⟩

theorem C7_witness :
    ([(("u", "e4 ") : Game)].get? 0 = some ("u", "e4 ")) ∧
    ((["e4", "e5"] = ([] : List String) →
      (terminal_cleanup [("u", "e4 ")] ("u", "e4 ") (some 0) ["e4", "e5"]).1 =
        [(("u", "e4 ") : Game)].erase ("u", "e4 ") ∧
      (terminal_cleanup [("u", "e4 ")] ("u", "e4 ") (some 0) ["e4", "e5"]).1.count ("u", "e4 ") =
        [(("u", "e4 ") : Game)].count ("u", "e4 ") - 1) ∧
    ((["e4", "e5"] : List String) ≠ [] →
      (terminal_cleanup [("u", "e4 ")] ("u", "e4 ") (some 0) ["e4", "e5"]).1 =
        [(("u", "e4 ") : Game)].set 0 ("u", pgn_list_to_string ["e4", "e5"]) ∧
      (terminal_cleanup [("u", "e4 ")] ("u", "e4 ") (some 0) ["e4", "e5"]).2 =
        ("u", pgn_list_to_string ["e4", "e5"]))) :=
  ⟨rfl, C7_terminal_cleanup_spec [("u", "e4 ")] ("u", "e4 ") 0 ["e4", "e5"] rfl⟩

/-- C3: a message containing the resign marker (case-insensitively) takes
the resign branch before anything else: the user's session, if one exists,
is removed from the store (the entry equal to the last case-insensitive
match), no engine move is requested, and every emitted event is a plain
status post (in particular no move is applied and no board is posted). -/
theorem C3_resign_first (C : ChessLib) (play : C.Board → Option String)
    (mid : Int) (name text : String) (games : List Game)
    (hres : pyContains (pyLower text) "#resign" = true) :
    ∃ r, process_mention C play mid name text games = some r ∧
      (lastMatch name games = none → r.games = games) ∧
      (∀ i g, lastMatch name games = some (i, g) →
        r.games = games.erase g ∧ pyLower name = pyLower g.1) ∧
      Event.engine ∉ r.events ∧
      ∀ e ∈ r.events, ∃ t, e = Event.status t := by
  rcases hlm : lastMatch name games with _ | ⟨i, g⟩
  · refine ⟨⟨games, [Event.status ("@" ++ name ++
        " You made me work hard for that. Good game!")]⟩, ?_, ?_, ?_, ?_, ?_⟩
    · simp [process_mention, hres, hlm]
    · intro _; rfl
    · intro i g h
      exact Option.noConfusion h
    · simp
    · intro e he
      simp at he
      exact ⟨_, he⟩
  · refine ⟨⟨games.erase g, Event.status ("@" ++ name ++
        " You made me work hard for that. Good game!")
          :: gameOverEvents name g.2⟩, ?_, ?_, ?_, ?_, ?_⟩
    · simp [process_mention, hres, hlm]
    · intro h
      exact Option.noConfusion h
    · intro i' g' h
      obtain ⟨h1, h2⟩ : i = i' ∧ g = g' := by simpa using h
      subst h1
      subst h2
      exact ⟨rfl, (lastMatch_get games name i g hlm).2⟩
    · simp [gameOverEvents]
    · intro e he
      simp only [gameOverEvents, List.mem_cons, List.mem_map] at he
      rcases he with rfl | rfl | ⟨a, _, rfl⟩ <;> exact ⟨_, rfl⟩

theorem C3_witness :
    pyContains (pyLower "#resign captures a") "#resign" = true ∧
    ∃ r, process_mention toyChess toyPlay 5 "u" "#resign captures a"
        [("U", "a ")] = some r ∧
      (lastMatch "u" [(("U", "a ") : Game)] = none → r.games = [("U", "a ")]) ∧
      (∀ i g, lastMatch "u" [(("U", "a ") : Game)] = some (i, g) →
        r.games = [(("U", "a ") : Game)].erase g ∧ pyLower "u" = pyLower g.1) ∧
      Event.engine ∉ r.events ∧
      ∀ e ∈ r.events, ∃ t, e = Event.status t :=
  ⟨by decide, C3_resign_first toyChess toyPlay 5 "u" "#resign captures a"
    [("U", "a ")] (by decide)⟩

theorem eraseTracked_fst (games : List Game) (curr : Game) (idx : Option Nat) :
    (eraseTracked games curr idx).1 = games.erase curr := by
  rcases idx with _ | i
  · rfl
  · rw [eraseTracked.eq_def]
    rcases h : firstIdxOf curr games with _ | j <;> simp [h]

/-- C4: when the player's applied move yields checkmate, the turn ends with
the human as winner: the session entry is removed and the engine is never
invoked; when it does not yield checkmate, the engine is invoked. -/
theorem C4_checkmate_ends_game (C : ChessLib) (play : C.Board → Option String)
    (mid : Int) (name text : String) (games : List Game) (i : Nat) (g : Game)
    (mh : List String) (b : C.Board)
    (h1 : pyContains (pyLower text) "#resign" = false)
    (h2 : pyContains (pyLower text) "#error" = false)
    (h3 : pyContains (pyLower text) "#possiblemoves" = false)
    (h4 : pyContains (pyLower text) "#getpgn" = false)
    (h5 : pyContains (pyLower text) "#startgame" = false)
    (h6 : lastMatch name games = some (i, g))
    (h7 : (extract_move text).data ≠ [])
    (h8 : apply_player_move C (pySplitWs g.2) (extract_move text) = some (true, mh))
    (h9 : push_pgn C mh = some b)
    (h10 : firstIdxOf g games = some i) :
    (C.isCheckmate b = true →
      ∃ r, process_mention C play mid name text games = some r ∧
        r.games = games.eraseIdx i ∧ Event.engine ∉ r.events) ∧
    (C.isCheckmate b = false →
      ∀ bm mh2 b2, apply_bot_move C play mh = some (bm, mh2) →
        push_pgn C mh2 = some b2 →
        ∃ r, process_mention C play mid name text games = some r ∧
          Event.engine ∈ r.events) := by
  obtain ⟨b0, hb0, hmem, hmh⟩ := apply_player_move_true C _ _ _ h8
  have hmhne : ¬ mh.isEmpty := by
    rw [hmh]
    simp
  have hstep : process_mention C play mid name text games =
      make_move C play name text (pyLower text) games g (some i) := by
    simp [process_mention, h1, h2, h3, h4, h5, h6]
  constructor
  · intro hcm
    refine ⟨⟨games.erase g,
      Event.media ("@" ++ name ++ " You mated me! Congratulations!")
        :: gameOverEvents name (pgn_list_to_string mh)⟩, ?_, ?_, ?_⟩
    · rw [hstep]
      simp only [make_move, if_pos h7, h8, h9, hcm, eraseTracked, h10,
        if_pos rfl, finishTurn, terminal_cleanup, if_neg hmhne, if_pos rfl]
      simp
    · exact firstIdxOf_erase games g i h10
    · simp [gameOverEvents]
  · intro hcm bm mh2 b2 hab hp2
    obtain ⟨b1, hb1, hplay, hmh2⟩ := apply_bot_move_some C play _ _ _ hab
    have hmh2ne : ¬ mh2.isEmpty := by
      rw [hmh2]
      simp
    rcases hcm2 : C.isCheckmate b2 with _ | _
    · refine ⟨⟨games.set i (g.1, pgn_list_to_string mh2),
        [Event.engine, Event.media ("@" ++ name ++ " " ++ bm)]⟩, ?_, by simp⟩
      rw [hstep]
      simp only [make_move, if_pos h7, h8, h9, hcm, hab, hp2, hcm2,
        finishTurn, terminal_cleanup, if_neg hmh2ne]
      simp
    · refine ⟨⟨games.erase g,
        Event.engine :: Event.media ("@" ++ name ++ " " ++ bm ++ "Checkmate!")
          :: gameOverEvents name (pgn_list_to_string mh2)⟩, ?_, by simp⟩
      rw [hstep]
      simp only [make_move, if_pos h7, h8, h9, hcm, hab, hp2, hcm2,
        eraseTracked, h10, if_pos rfl, finishTurn, terminal_cleanup,
        if_neg hmh2ne]
      simp

theorem C4_witness :
    (toyMate.isCheckmate (["a"] : List String) = true →
      ∃ r, process_mention toyMate toyPlay 1 "u" "captures a" [("u", "")] =
          some r ∧
        r.games = [(("u", "") : Game)].eraseIdx 0 ∧
        Event.engine ∉ r.events) ∧
    (toyMate.isCheckmate (["a"] : List String) = false →
      ∀ bm mh2 b2, apply_bot_move toyMate toyPlay ["a"] = some (bm, mh2) →
        push_pgn toyMate mh2 = some b2 →
        ∃ r, process_mention toyMate toyPlay 1 "u" "captures a" [("u", "")] =
            some r ∧
          Event.engine ∈ r.events) :=
  C4_checkmate_ends_game toyMate toyPlay 1 "u" "captures a" [("u", "")] 0
    ("u", "") ["a"] ["a"] (by decide) (by decide) (by decide) (by decide)
    (by decide) (by decide) (by decide) rfl rfl (by decide)

/-- Traces in which every message's handling (or aborting exception) is
immediately preceded by the persistence of that message's id. -/
inductive CursorOk : List CycleEvent → Prop where
  | nil : CursorOk []
  | handledBlock (id : Int) (ev : List Event) (rest : List CycleEvent) :
      CursorOk rest →
      CursorOk (CycleEvent.cursorWrite id :: CycleEvent.handled id ev :: rest)
  | abortedBlock (id : Int) :
      CursorOk [CycleEvent.cursorWrite id, CycleEvent.aborted id]

/-- The sequence of cursor values persisted during a cycle, in order. -/
def cursorWrites (tr : List CycleEvent) : List Int :=
  tr.filterMap fun e =>
    match e with
    | CycleEvent.cursorWrite i => some i
    | _ => none

/-- C8: during one cycle the cursor is advanced to each message's id and
persisted immediately before that message's handling (per message, never
batched); the persisted values are the ids of a prefix of the oldest-first
message list, so when the inbound ids are non-decreasing the stored cursor
never decreases across the cycle. -/
theorem C8_cursor_persisted_per_message (C : ChessLib)
    (play : C.Board → Option String) (ms : List Mention) (gs : List Game)
    (hsorted : List.Pairwise (· ≤ ·) (ms.map Mention.id)) :
    CursorOk (run_cycle C play ms gs).1 ∧
    (∃ k, k ≤ ms.length ∧
      cursorWrites (run_cycle C play ms gs).1 = (ms.take k).map Mention.id) ∧
    List.Pairwise (· ≤ ·) (cursorWrites (run_cycle C play ms gs).1) := by
  induction ms generalizing gs with
  | nil =>
    exact ⟨CursorOk.nil, ⟨0, by simp, by simp [run_cycle, cursorWrites]⟩,
      by simp [run_cycle, cursorWrites]⟩
  | cons m rest IH =>
    have hhead : ∀ x ∈ rest.map Mention.id, m.id ≤ x :=
      (List.pairwise_cons.mp (by simpa using hsorted)).1
    have htail : List.Pairwise (· ≤ ·) (rest.map Mention.id) :=
      (List.pairwise_cons.mp (by simpa using hsorted)).2
    rcases hp : process_mention C play m.id m.user m.text gs with _ | r
    · have htr : (run_cycle C play (m :: rest) gs).1 =
          [CycleEvent.cursorWrite m.id, CycleEvent.aborted m.id] := by
        simp [run_cycle, hp]
      rw [htr]
      refine ⟨CursorOk.abortedBlock m.id, ⟨1, by simp, ?_⟩, ?_⟩
      · simp [cursorWrites]
      · simp [cursorWrites]
    · obtain ⟨hok, ⟨k, hk, hwr⟩, hmono⟩ := IH r.games htail
      have htr : (run_cycle C play (m :: rest) gs).1 =
          CycleEvent.cursorWrite m.id :: CycleEvent.handled m.id r.events ::
            (run_cycle C play rest r.games).1 := by
        simp [run_cycle, hp]
      rw [htr]
      have hcw : cursorWrites (CycleEvent.cursorWrite m.id ::
          CycleEvent.handled m.id r.events ::
            (run_cycle C play rest r.games).1) =
          m.id :: cursorWrites (run_cycle C play rest r.games).1 := by
        simp [cursorWrites]
      refine ⟨CursorOk.handledBlock m.id r.events _ hok, ⟨k + 1, ?_, ?_⟩, ?_⟩
      · simpa using Nat.succ_le_succ hk
      · rw [hcw, hwr]
        simp
      · rw [hcw]
        rw [List.pairwise_cons]
        refine ⟨?_, hmono⟩
        intro x hx
        rw [hwr] at hx
        rcases List.mem_map.mp hx with ⟨mm, hmm, rfl⟩
        exact hhead mm.id (List.mem_map.mpr ⟨mm, List.mem_of_mem_take hmm, rfl⟩)

theorem C8_witness :
    List.Pairwise (· ≤ ·) ([⟨1, "u", "#getpgn"⟩,
        (⟨2, "u", "hi"⟩ : Mention)].map Mention.id) ∧
    (CursorOk (run_cycle toyChess toyPlay
        [⟨1, "u", "#getpgn"⟩, ⟨2, "u", "hi"⟩] []).1 ∧
      (∃ k, k ≤ ([⟨1, "u", "#getpgn"⟩, (⟨2, "u", "hi"⟩ : Mention)]).length ∧
        cursorWrites (run_cycle toyChess toyPlay
            [⟨1, "u", "#getpgn"⟩, ⟨2, "u", "hi"⟩] []).1 =
          (([⟨1, "u", "#getpgn"⟩, (⟨2, "u", "hi"⟩ : Mention)]).take k).map
            Mention.id) ∧
      List.Pairwise (· ≤ ·) (cursorWrites (run_cycle toyChess toyPlay
        [⟨1, "u", "#getpgn"⟩, ⟨2, "u", "hi"⟩] []).1)) :=
  ⟨by decide, C8_cursor_persisted_per_message toyChess toyPlay
    [⟨1, "u", "#getpgn"⟩, ⟨2, "u", "hi"⟩] [] (by decide)⟩

/-- Shape of a failed `apply_player_move`: the history comes back
unchanged. -/
theorem apply_player_move_false (C : ChessLib) (h : List String) (m : String)
    (l : List String) (hap : apply_player_move C h m = some (false, l)) :
    l = h := by
  unfold apply_player_move at hap
  rcases hb : push_pgn C h with _ | b0 <;> rw [hb] at hap
  · simp at hap
  · by_cases hm : m ∈ possible_moves C b0
    · simp [hm] at hap
    · simp [hm] at hap
      exact hap.symm

/-- Appending a legal SAN token keeps a history well-formed. -/
theorem histWf_append_legal (C : ChessLib) (hwf : SansWf C) {l : List String}
    {b : C.Board} {m : String} (hl : HistWf l) (hm : m ∈ C.legalSans b) :
    HistWf (l ++ [m]) := by
  intro t ht
  rcases List.mem_append.mp ht with h | h
  · exact hl t h
  · simp at h
    subst h
    obtain ⟨hne, hch⟩ := hwf b t hm
    exact ⟨hne, fun c hc => (hch c hc).1⟩

/-- The turn assembly keeps the invariant when the final history is
well-formed and replays. -/
theorem finishTurn_storeInv (C : ChessLib) (name : String) (G : List Game)
    (curr : Game) (I : Option Nat) (go : Bool) (ev : List Event)
    (mh : List String) (r : TurnResult)
    (hG : StoreInv C G) (hmh : HistWf mh) (hsome : (push_pgn C mh).isSome)
    (hr : finishTurn name G curr I go ev mh = some r) :
    StoreInv C r.games := by
  simp only [finishTurn, Option.some.injEq] at hr
  rw [← hr]
  exact storeInv_terminal_cleanup C G curr I mh hG hmh hsome

/-- The move-handling block keeps the store invariant. -/
theorem make_move_storeInv (C : ChessLib) (play : C.Board → Option String)
    (hwf : SansWf C) (hpl : PlayLegal C play)
    (name text lower : String) (games : List Game) (curr : Game)
    (idx : Option Nat) (r : TurnResult)
    (hinv : StoreInv C games)
    (hr : make_move C play name text lower games curr idx = some r) :
    StoreInv C r.games := by
  have hwfhist : HistWf (pySplitWs curr.2) := histWf_pySplitWs curr.2
  simp only [make_move] at hr
  split at hr
  · -- a move token was extracted
    split at hr
    · exact absurd hr (by simp)
    · -- the player's move was applied
      rename_i h7 x mh heq
      obtain ⟨b0, hb0, hmem, hmh⟩ := apply_player_move_true C _ _ _ heq
      subst hmh
      have hwfmh : HistWf (pySplitWs curr.2 ++ [extract_move text]) :=
        histWf_append_legal C hwf hwfhist
          (mem_legalSans_of_mem_possible_moves C hwf hmem h7)
      split at hr
      · exact absurd hr (by simp)
      · rename_i board hpp
        split at hr
        · -- the player mated the bot
          refine finishTurn_storeInv C name _ curr _ true _ _ r ?_ hwfmh ?_ hr
          · rw [eraseTracked_fst]
            exact storeInv_erase C games curr hinv
          · rw [hpp]
            rfl
        · -- the bot replies
          split at hr
          · exact absurd hr (by simp)
          · rename_i hcm y bm mh2 heq2
            obtain ⟨b1, hb1, hplay, hmh2⟩ := apply_bot_move_some C play _ _ _ heq2
            subst hmh2
            have hwfmh2 : HistWf ((pySplitWs curr.2 ++ [extract_move text]) ++ [bm]) :=
              histWf_append_legal C hwf hwfmh (hpl b1 bm hplay)
            split at hr
            · exact absurd hr (by simp)
            · rename_i board2 hpp2
              split at hr
              · -- the bot mated the player
                refine finishTurn_storeInv C name _ curr _ true _ _ r ?_ hwfmh2 ?_ hr
                · rw [eraseTracked_fst]
                  exact storeInv_erase C games curr hinv
                · rw [hpp2]
                  rfl
              · -- game continues
                refine finishTurn_storeInv C name _ curr _ false _ _ r hinv hwfmh2 ?_ hr
                rw [hpp2]
                rfl
    · -- the player's move was rejected
      rename_i h7 x mh heq
      obtain rfl := apply_player_move_false C _ _ _ heq
      split at hr
      · exact absurd hr (by simp)
      · rename_i board hpp
        refine finishTurn_storeInv C name _ curr _ false _ _ r hinv hwfhist ?_ hr
        rw [hpp]
        rfl
  · -- no move token
    split at hr
    · -- fresh start as black: the bot opens
      split at hr
      · exact absurd hr (by simp)
      · rename_i hsg y bm mh2 heq2
        obtain ⟨b1, hb1, hplay, hmh2⟩ := apply_bot_move_some C play _ _ _ heq2
        subst hmh2
        have hwfmh2 : HistWf (pySplitWs curr.2 ++ [bm]) :=
          histWf_append_legal C hwf hwfhist (hpl b1 bm hplay)
        split at hr
        · exact absurd hr (by simp)
        · rename_i board2 hpp2
          refine finishTurn_storeInv C name _ curr _ false _ _ r hinv hwfmh2 ?_ hr
          rw [hpp2]
          rfl
    · -- plain reply, no state change
      split at hr
      · exact absurd hr (by simp)
      · rename_i hsg board hpp
        refine finishTurn_storeInv C name _ curr _ false _ _ r hinv hwfhist ?_ hr
        rw [hpp]
        rfl

/-- C2: one whole message-processing turn preserves the store invariant:
assuming the chess library and engine behave as documented, every history in
the updated store still replays without failure from the initial position. -/
theorem C2_store_invariant_preserved (C : ChessLib)
    (play : C.Board → Option String) (mid : Int) (name text : String)
    (games : List Game) (r : TurnResult)
    (hwf : SansWf C) (hpl : PlayLegal C play)
    (hinv : StoreInv C games)
    (hr : process_mention C play mid name text games = some r) :
    StoreInv C r.games := by
  simp only [process_mention] at hr
  split at hr
  · -- resign
    split at hr
    · rename_i i g heq
      have hg := Option.some.inj hr
      rw [← hg]
      exact storeInv_erase C games g hinv
    · have hg := Option.some.inj hr
      rw [← hg]
      exact hinv
  · split at hr
    · -- error report
      have hg := Option.some.inj hr
      rw [← hg]
      exact hinv
    · split at hr
      · -- possible moves
        split at hr
        · exact absurd hr (by simp)
        · have hg := Option.some.inj hr
          rw [← hg]
          exact hinv
      · split at hr
        · -- getpgn
          split at hr
          · have hg := Option.some.inj hr
            rw [← hg]
            exact hinv
          · have hg := Option.some.inj hr
            rw [← hg]
            exact hinv
        · -- move handling
          split at hr
          · have hg := Option.some.inj hr
            rw [← hg]
            exact hinv
          · rename_i i g hgi hsg
            refine make_move_storeInv C play hwf hpl name text _ _ _ _ r ?_ hr
            refine storeInv_set C games i (g.1, "") hinv ?_
            exact push_pgn_empty_text C
          · refine make_move_storeInv C play hwf hpl name text _ _ _ _ r ?_ hr
            exact storeInv_append_empty C games name hinv
          · rename_i i g hgi hsg
            exact make_move_storeInv C play hwf hpl name text _ _ _ _ r hinv hr

theorem toyChess_sansWf : SansWf toyChess := by
  intro b s h
  have hs : s = "a" ∨ s = "b" := by
    have h' : s ∈ toyLegal b := h
    rw [toyLegal] at h'
    split at h'
    · left
      simpa using h'
    · split at h'
      · right
        simpa using h'
      · simp at h'
  rcases hs with rfl | rfl
  · exact ⟨by decide, by decide⟩
  · exact ⟨by decide, by decide⟩

theorem toyPlay_legal : PlayLegal toyChess toyPlay := by
  intro b m h
  have h' : (toyLegal b).head? = some m := h
  show m ∈ toyLegal b
  rcases hl : toyLegal b with _ | ⟨x, xs⟩
  · rw [hl] at h'
    exact Option.noConfusion h'
  · rw [hl] at h'
    simp only [List.head?_cons, Option.some.injEq] at h'
    subst h'
    simp

theorem toyStoreInv_start : StoreInv toyChess [("u", "")] := by
  intro g hg
  simp only [List.mem_singleton] at hg
  subst hg
  rfl

theorem C2_witness :
    SansWf toyChess ∧ PlayLegal toyChess toyPlay ∧
    StoreInv toyChess [("u", "")] ∧
    process_mention toyChess toyPlay 1 "u" "captures a" [("u", "")] =
      some ⟨[("u", "a b ")], [Event.engine, Event.media "@u b"]⟩ ∧
    StoreInv toyChess [("u", "a b ")] :=
  ⟨toyChess_sansWf, toyPlay_legal, toyStoreInv_start, by decide,
    C2_store_invariant_preserved toyChess toyPlay 1 "u" "captures a"
      [("u", "")] ⟨[("u", "a b ")], [Event.engine, Event.media "@u b"]⟩
      toyChess_sansWf toyPlay_legal toyStoreInv_start (by decide)⟩

end ChessBot
